import Mathlib

/-!
Verification of the gochess repository (a Go library for parsing PGN chess
games and replaying SAN moves on a mailbox board).

The development shallowly embeds the three source units:
  * the PGN tokenizer (`tokenizer.next` in the parser source file),
  * the recursive-descent movetext parser (`generatePlies`),
  * the board engine (`board.go`: `NewBoardFromFen`, `attackersOf`,
    `piecesMovableTo`, `makeMoveFor`, `tryMove`, `MakeMove`, `Fen`).

Conventions used throughout:
  * Go byte strings become `List Char` (all inputs of interest are ASCII).
  * Go slice expressions `s[lo:hi]` are modelled with an explicit bounds
    check (`goSlice`); an out-of-range slice, an out-of-range index, or a
    nil-pointer dereference is modelled as an abnormal `none` / `.panic`
    outcome, distinct from an ordinary returned `error`.
  * Machine integers: board squares are `Int`; packed piece bytes are `Nat`
    (< 256) with explicit bit arithmetic; `uint8` counters wrap modulo 256.
  * Loops whose bound is not structural carry explicit fuel; the Go loops
    they embed always terminate within the supplied fuel on the states the
    program can construct, and all fuel-sensitive theorems quantify over or
    fix a sufficient fuel.
-/

namespace Gochess

/-! ## Tokenizer (`tokenizer.next`) -/

/-- Token kinds, in the order of the Go `pgnToken` enumeration. -/
inductive PgnToken : Type where
  | EOF | PERIOD | ASTERISK | LBRACKET | RBRACKET | LPAREN | RPAREN
  | LANGLE | RANGLE | NAG | RESULT | STRING | SYMBOL | INTEGER
  | IDENTIFIER | COMMENT | TOKEN
deriving DecidableEq, Repr

/-- One lexical token: kind plus literal text, as in the Go `token` struct. -/
structure Tok : Type where
  typ : PgnToken
  val : String
deriving DecidableEq, Repr

/-- The whitespace set skipped by `next` (space, tab, newline, CR, vertical tab). -/
def isWs (c : Char) : Bool :=
  c = ' ' || c = '\t' || c = '\n' || c = '\r' || c = '\x0b'

/-- ASCII decimal digit test, as used by the Go scanner (`'0' <= c && c <= '9'`). -/
def isDigitCh (c : Char) : Bool :=
  '0' ≤ c && c ≤ '9'

/-- Letter or underscore, the Go identifier-character test. -/
def isIdCh (c : Char) : Bool :=
  ('a' ≤ c && c ≤ 'z') || ('A' ≤ c && c ≤ 'Z') || c = '_'

/-- The Go symbol-character test (`+ # = : -`). -/
def isSymCh (c : Char) : Bool :=
  c = '+' || c = '#' || c = '=' || c = ':' || c = '-'

/-- A character that keeps the maximal-run scan going. -/
def isWordCh (c : Char) : Bool :=
  isDigitCh c || isIdCh c || isSymCh c

/-- Go slice expression `l[lo:hi]`: defined only when `lo ≤ hi ≤ len l`
(the embedding takes the slice capacity to be its length); `none` models
the runtime bounds panic. -/
def goSlice (l : List Char) (lo hi : Nat) : Option (List Char) :=
  if lo ≤ hi ∧ hi ≤ l.length then some ((l.drop lo).take (hi - lo)) else none

/-- `bytes.IndexByte`: index of the first occurrence of `c`, or `none`. -/
def idxOf (c : Char) : List Char → Option Nat
  | [] => none
  | x :: xs => if x = c then some 0 else (idxOf c xs).map (· + 1)

/-- The scan loop of the string branch of `next`, carried on the suffix
starting at index `pos`: advance until an unescaped double quote, a
backslash skipping the following character (the Go `continue` also runs
the loop post-statement `pos++`). Returns the final value of `pos`, which
exceeds the length by one when the input ends in a backslash. -/
def scanStr : List Char → Nat → Nat
  | [], pos => pos
  | c :: rest, pos =>
    if c = '\\' then
      match rest with
      | [] => pos + 2
      | _ :: rest2 => scanStr rest2 (pos + 2)
    else if c = '"' then pos
    else scanStr rest (pos + 1)

/-- `tokenizer.next`: skip whitespace, then produce one token following the
branch order of the Go source (comment, string, result literals, single
characters, NAG, maximal symbol run). `none` models a runtime panic, which
the string branch can reach through `goSlice`. -/
def next (l : List Char) : Option (Tok × List Char) :=
  let t := l.dropWhile isWs
  match t with
  | [] => some (⟨.EOF, ""⟩, [])
  | c :: _ =>
    if c = ';' || c = '{' then
      let delim := if c = '{' then '}' else '\n'
      match idxOf delim t with
      | some i => some (⟨.COMMENT, String.mk ((t.drop 1).take (i - 1))⟩, t.drop (i + 1))
      | none => some (⟨.COMMENT, String.mk (t.drop 1)⟩, [])
    else if c = '"' then
      let pos := scanStr (t.drop 1) 1
      match goSlice t 1 pos, goSlice t (pos + 1) t.length with
      | some tokC, some restC => some (⟨.STRING, String.mk tokC⟩, restC)
      | _, _ => none
    else if ['1', '-', '0'].isPrefixOf t then
      some (⟨.RESULT, "1-0"⟩, t.drop 3)
    else if ['0', '-', '1'].isPrefixOf t then
      some (⟨.RESULT, "0-1"⟩, t.drop 3)
    else if ['1', '/', '2', '-', '1', '/', '2'].isPrefixOf t then
      some (⟨.RESULT, "1/2-1/2"⟩, t.drop 7)
    else if c = '.' then some (⟨.PERIOD, "."⟩, t.drop 1)
    else if c = '*' then some (⟨.ASTERISK, "*"⟩, t.drop 1)
    else if c = '[' then some (⟨.LBRACKET, "["⟩, t.drop 1)
    else if c = ']' then some (⟨.RBRACKET, "]"⟩, t.drop 1)
    else if c = '(' then some (⟨.LPAREN, "("⟩, t.drop 1)
    else if c = ')' then some (⟨.RPAREN, ")"⟩, t.drop 1)
    else if c = '<' then some (⟨.LANGLE, "<"⟩, t.drop 1)
    else if c = '>' then some (⟨.RANGLE, ">"⟩, t.drop 1)
    else if c = '$' then
      let ds := (t.drop 1).takeWhile isDigitCh
      let v := if ds = [] then "0" else String.mk ds
      some (⟨.NAG, v⟩, t.drop (1 + ds.length))
    else
      let run := t.takeWhile isWordCh
      let typ :=
        if run.any isSymCh then PgnToken.SYMBOL
        else if run.any isIdCh then PgnToken.IDENTIFIER
        else if run.any isDigitCh then PgnToken.INTEGER
        else PgnToken.TOKEN
      some (⟨typ, String.mk run⟩, t.drop run.length)

/-! ## SAN grammar (`pgnSAN_REGEXP`)

The pattern is anchored at both ends, so matching is language membership:
`^(((O-O|O-O-O)|((P?|[RNBQK])[a-h]?[1-8]?x?[a-h][1-8](=[PRNBQK])?))(\+|#)?(!|\?|!!|\?\?|\?!|!\?)?)$`.
The matcher below enumerates the finitely many decompositions. -/

/-- File letter `[a-h]`. -/
def isFileCh (c : Char) : Bool := 'a' ≤ c && c ≤ 'h'

/-- Rank digit `[1-8]`. -/
def isRankCh (c : Char) : Bool := '1' ≤ c && c ≤ '8'

/-- Piece letter `[PRNBQK]`. -/
def isPieceCh (c : Char) : Bool :=
  c = 'P' || c = 'R' || c = 'N' || c = 'B' || c = 'Q' || c = 'K'

/-- Remainders after the optional single-character part `p?` of a regex,
most-consumed first (ordering is irrelevant for anchored membership). -/
def optCh (p : Char → Bool) : List Char → List (List Char)
  | [] => [[]]
  | c :: cs => if p c then [cs, c :: cs] else [c :: cs]

/-- The promotion tail `(=[PRNBQK])?` followed by end of core. -/
def promoTail : List Char → Bool
  | [] => true
  | ['=', c] => isPieceCh c
  | _ => false

/-- Membership in `(P?|[RNBQK])[a-h]?[1-8]?x?[a-h][1-8](=[PRNBQK])?`. -/
def pieceMoveOK (cs : List Char) : Bool :=
  (optCh (· = 'P') cs ++ optCh (fun c => isPieceCh c && c ≠ 'P') cs).any fun cs1 =>
    (optCh isFileCh cs1).any fun cs2 =>
      (optCh isRankCh cs2).any fun cs3 =>
        (optCh (· = 'x') cs3).any fun cs4 =>
          match cs4 with
          | f :: r :: rest => isFileCh f && isRankCh r && promoTail rest
          | _ => false

/-- Membership in the castling alternative `O-O|O-O-O`. -/
def castleOK (cs : List Char) : Bool :=
  cs = ['O', '-', 'O'] || cs = ['O', '-', 'O', '-', 'O']

/-- The optional check marker and annotation-glyph suffixes of the pattern. -/
def sanSuffixes : List (List Char) :=
  (["", "+", "#"].map String.toList).flatMap fun chk =>
    (["", "!", "?", "!!", "??", "?!", "!?"].map String.toList).map fun ann =>
      chk ++ ann

/-- `san_re.MatchString`: full-string membership in `pgnSAN_REGEXP`. -/
def sanOK (s : String) : Bool :=
  let cs := s.toList
  sanSuffixes.any fun suf =>
    suf.isSuffixOf cs &&
      (let core := cs.take (cs.length - suf.length)
       castleOK core || pieceMoveOK core)

/-- The `strings.HasSuffix` ladder of `generatePlies`: strips a trailing
annotation glyph and yields its numeric code, in the exact order of the Go
chain (`!!`, `??`, `!?`, `?!`, `!`, `?`). -/
def stripAnnot (s : String) : String × Option Nat :=
  let cs := s.toList
  let cut : Nat → String := fun n => String.mk (cs.take (cs.length - n))
  if ['!', '!'].isSuffixOf cs then (cut 2, some 3)
  else if ['?', '?'].isSuffixOf cs then (cut 2, some 4)
  else if ['!', '?'].isSuffixOf cs then (cut 2, some 5)
  else if ['?', '!'].isSuffixOf cs then (cut 2, some 6)
  else if ['!'].isSuffixOf cs then (cut 1, some 1)
  else if ['?'].isSuffixOf cs then (cut 1, some 2)
  else (s, none)

/-! ## Variation / Ply tree and `generatePlies` -/

mutual
/-- One half-move: SAN text, annotation codes (`Nags`), comment, and
alternative variations, as the Go `Ply` struct. -/
inductive Ply : Type where
  | mk : String → List Nat → String → List Variation → Ply
/-- One line of play: starting move number and side, plies, result, and a
variation-level comment, as the Go `Variation` struct. -/
inductive Variation : Type where
  | mk : Nat → Bool → List Ply → String → String → Variation
end

def Ply.SAN : Ply → String
  | .mk s _ _ _ => s

def Ply.Nags : Ply → List Nat
  | .mk _ n _ _ => n

def Ply.Comment : Ply → String
  | .mk _ _ c _ => c

def Ply.Variations : Ply → List Variation
  | .mk _ _ _ v => v

def Variation.MoveNumber : Variation → Nat
  | .mk n _ _ _ _ => n

def Variation.WhiteMove : Variation → Bool
  | .mk _ w _ _ _ => w

def Variation.Plies : Variation → List Ply
  | .mk _ _ p _ _ => p

def Variation.Result : Variation → String
  | .mk _ _ _ r _ => r

def Variation.Comment : Variation → String
  | .mk _ _ _ _ c => c

/-- The zero value of `Variation` (the fresh `var v Variation` of the
recursive RAV call, and the fresh `game.Moves`). -/
def emptyVariation : Variation := .mk 0 false [] "" ""

def Variation.setResult : Variation → String → Variation
  | .mk n w p _ c, r => .mk n w p r c

def Variation.setStart : Variation → Nat → Bool → Variation
  | .mk _ _ p r c, n, w => .mk n w p r c

def Variation.addPly : Variation → Ply → Variation
  | .mk n w p r c, ply => .mk n w (p ++ [ply]) r c

def Variation.addComment : Variation → String → Variation
  | .mk n w p r c, s => .mk n w p r (c ++ s)

/-- In Go the local `ply` is a pointer to the most recently appended element
of `variation.Plies`; mutations through it rewrite that last element. -/
def updateLastPly (f : Ply → Ply) : List Ply → List Ply
  | [] => []
  | [p] => [f p]
  | p :: ps => p :: updateLastPly f ps

def Variation.updPly : Variation → (Ply → Ply) → Variation
  | .mk n w p r c, f => .mk n w (updateLastPly f p) r c

def Ply.addNag : Ply → Nat → Ply
  | .mk s n c v, g => .mk s (n ++ [g]) c v

def Ply.addComment : Ply → String → Ply
  | .mk s n c v, t => .mk s n (c ++ t) v

def Ply.addVariation : Ply → Variation → Ply
  | .mk s n c v, w => .mk s n c (v ++ [w])

/-- `strconv.Atoi` restricted to the token shapes the parser feeds it
(digit runs); yields the decimal value. Conversion to `uint8` is modelled
by the callers' `% 256`. -/
def atoiDigits (s : String) : Nat :=
  s.toList.foldl (fun a c => a * 10 + (c.toNat - 48)) 0

/-- Abnormal outcomes of a parse: an ordinary returned `error` (with a
message tag), a runtime panic (nil-pointer dereference or slice bounds),
or fuel exhaustion of the embedding. -/
inductive PErr : Type where
  | parseErr : String → PErr
  | panic : PErr
  | fuel : PErr
deriving DecidableEq

/-- Result of `generatePlies`: the populated variation plus remaining input. -/
abbrev PRes := Except PErr (Variation × List Char)

/-- The inner loop of the `pgnINTEGER` case: consume period tokens, counting
them, and return the count together with the first non-period token. -/
def skipPeriods (fuel : Nat) (text : List Char) (i : Nat) :
    Option (Nat × Tok × List Char) :=
  match fuel with
  | 0 => none
  | fuel + 1 =>
    match next text with
    | none => none
    | some (tok, text') =>
      if tok.typ = .PERIOD then skipPeriods fuel text' (i + 1)
      else some (i, tok, text')

/-- The head of the `pgnSYMBOL, pgnIDENTIFIER` case of `generatePlies`:
validate the move text and strip a trailing annotation glyph **onto the
previous ply** (the Go code appends to `ply.Nags` before reassigning
`ply`; a nil `ply` is a panic). Returns the SAN to store and the
variation with any glyph recorded. -/
def prepMove (val : String) (variation : Variation) (hasPly : Bool) :
    Except PErr (String × Variation) :=
  if val = "--" then .ok ("--", variation)
  else if !sanOK val then .error (.parseErr ("mismatched SAN " ++ val))
  else
    match stripAnnot val with
    | (san, none) => .ok (san, variation)
    | (san, some code) =>
      if hasPly then .ok (san, variation.updPly (·.addNag code))
      else .error .panic

/-- `generatePlies`, one loop iteration per fuel unit. `pend` carries a token
already read but not yet consumed (the Go `goto loop` after the integer
case re-dispatches on such a token). `hasPly` models whether the local
`ply` pointer is non-nil; when it is, `ply` aliases the last element of
`variation.Plies`. -/
def genPlies : Nat → Option Tok → List Char → Variation → Bool → Bool →
    Nat → Bool → PRes
  | 0, _, _, _, _, _, _, _ => .error .fuel
  | fuel + 1, pend, text, variation, hasPly, inRav, thisMoveNumber,
      thisPlyWhite =>
    let step : Option (Tok × List Char) :=
      match pend with
      | some tok => some (tok, text)
      | none => next text
    match step with
    | none => .error .panic
    | some (tok, text') =>
      match tok.typ with
      | .RPAREN =>
        if inRav then .ok (variation.setResult "*", text')
        else .error (.parseErr "non matched rparen")
      | .RESULT =>
        let v' := variation.setResult tok.val
        if !inRav then .ok (v', text')
        else genPlies fuel none text' v' hasPly inRav thisMoveNumber thisPlyWhite
      | .ASTERISK =>
        let v' := variation.setResult tok.val
        if !inRav then .ok (v', text')
        else genPlies fuel none text' v' hasPly inRav thisMoveNumber thisPlyWhite
      | .EOF =>
        if inRav then .error (.parseErr "non closing RAV. unexpected EOF")
        else .ok (variation.setResult "*", text')
      | .INTEGER =>
        let n := atoiDigits tok.val
        match skipPeriods fuel text' 0 with
        | none => .error .panic
        | some (i, tok2, text2) =>
          let m := n % 256
          let p := i = 1
          if variation.MoveNumber ≠ 0 then
            if m ≠ thisMoveNumber then .error (.parseErr "move number mismatch")
            else if p ≠ thisPlyWhite then .error (.parseErr "move order mismatch")
            else genPlies fuel (some tok2) text2 variation hasPly inRav m p
          else
            genPlies fuel (some tok2) text2 (variation.setStart m p) hasPly inRav m p
      | .SYMBOL | .IDENTIFIER =>
        -- validate via `prepMove`, append the new ply, seed the variation's
        -- start on first use, and advance the running move bookkeeping
        match prepMove tok.val variation hasPly with
        | .error e => .error e
        | .ok (san, v0) =>
          let v1 := v0.addPly (.mk san [] "" [])
          let v2 :=
            if v1.MoveNumber = 0 then v1.setStart thisMoveNumber thisPlyWhite
            else v1
          let w' := !thisPlyWhite
          let n' := if w' then (thisMoveNumber + 1) % 256 else thisMoveNumber
          genPlies fuel none text' v2 true inRav n' w'
      | .NAG =>
        if hasPly then
          let v' := variation.updPly (·.addNag (atoiDigits tok.val % 256))
          genPlies fuel none text' v' hasPly inRav thisMoveNumber thisPlyWhite
        else .error .panic
      | .COMMENT =>
        let v' :=
          if hasPly then variation.updPly (·.addComment tok.val)
          else variation.addComment tok.val
        genPlies fuel none text' v' hasPly inRav thisMoveNumber thisPlyWhite
      | .LPAREN =>
        match genPlies fuel none text' emptyVariation false true
            thisMoveNumber thisPlyWhite with
        | .error .fuel => .error .fuel
        | .error .panic => .error .panic
        | .error (.parseErr e) => .error (.parseErr ("cannot parse RAV section: " ++ e))
        | .ok (v, text2) =>
          if hasPly then
            let v' := variation.updPly (·.addVariation v)
            genPlies fuel none text2 v' hasPly inRav thisMoveNumber thisPlyWhite
          else .error .panic
      | _ => .error (.parseErr "unexpected token")

/-- `Game.ParseMovesText`: run `generatePlies` on the movetext with the fresh
outermost variation, move number 1, white to move. -/
def parseMovesText (fuel : Nat) (text : String) : PRes :=
  genPlies fuel none text.toList emptyVariation false false 1 true

/-! ## Board engine (`board.go`) -/

/-- Colors, as the Go constants `cWHITE`, `cBLACK`. -/
def cWHITE : Nat := 0

def cBLACK : Nat := 1

/-- Piece-type constants. -/
def pPAWN : Nat := 1

def pKNIGHT : Nat := 2

def pBISHOP : Nat := 3

def pROOK : Nat := 4

def pQUEEN : Nat := 5

def pKING : Nat := 6

/-- `colorOf`. -/
def colorOf (b : Bool) : Nat := if b then cWHITE else cBLACK

/-- `color.opposite`. -/
def opposite (c : Nat) : Nat := if c = cWHITE then cBLACK else cWHITE

/-- `newPiece`: pack color (bit 7), moved flag (bit 3) and type (bits 0-2)
into one byte. -/
def newPiece (col typ : Nat) (moved : Bool) : Nat :=
  ((col <<< 7) ||| typ) ||| (if moved then 8 else 0)

/-- `piece.identify`: `(color, type)` from the packed byte. -/
def identify (p : Nat) : Nat × Nat := ((p / 128) % 2, p % 8)

/-- `piece.hasMoved`. -/
def hasMoved (p : Nat) : Bool := (p / 8) % 2 = 1

/-- `piece.markedMoved`. -/
def markedMoved (p : Nat) : Nat := p ||| 8

/-- `piece.String`: `"_PNBRQK"` / `"_pnbrqk"` indexed by the type field.
The board cells written by the engine always carry a type ≤ 6; the
out-of-range default is unreachable there. -/
def pieceStr (p : Nat) : String :=
  let (col, typ) := identify p
  if col = cWHITE then String.mk [['_', 'P', 'N', 'B', 'R', 'Q', 'K'].getD typ '_']
  else String.mk [['_', 'p', 'n', 'b', 'r', 'q', 'k'].getD typ '_']

/-- `sq2string`: mailbox index to algebraic text (`a1` … `h8`). -/
def sq2string (s : Int) : String :=
  String.mk [Char.ofNat (96 + (s.emod 10)).toNat, Char.ofNat (49 + (s.ediv 10 - 2)).toNat]

/-- `string2sq`: algebraic text to mailbox index. Callers always pass the
two-character destination captured by the SAN pattern. -/
def string2sq (sq : String) : Int :=
  match sq.toList with
  | [f, r] => 21 + ((r.toNat : Int) - 49) * 10 + ((f.toNat : Int) - 97)
  | _ => 0

/-- The Board: 120-cell mailbox (`sq`, borders are the sentinel `0xff`),
en-passant target (`0` = none), tracked king squares, active color, last
SAN, and the exported move bookkeeping. The Go 8×8 `play` view aliases
rows `91-10r … 98-10r` of `sq` and is read through those rows here. -/
structure Board : Type where
  sq : List Nat
  epsq : Int
  wksq : Int
  bksq : Int
  activeMove : Nat
  lastSAN : String
  MoveWhite : Bool
  MoveNumber : Nat
deriving DecidableEq

/-- Read a mailbox cell. Indices reachable from engine flows lie in
`[0,120)`; the sentinel default keeps the reader total. -/
def bread (b : Board) (i : Int) : Nat :=
  if i < 0 then 255 else b.sq.getD i.toNat 255

/-- Write a mailbox cell. -/
def bset (b : Board) (i : Int) (v : Nat) : Board :=
  if i < 0 then b else { b with sq := b.sq.set i.toNat v }

/-- Knight offsets `dKNIGHT`. -/
def dKNIGHT : List Int := [21, 12, 8, 19, -21, -12, -8, -19]

/-- King offsets `dKING`. -/
def dKING : List Int := [9, 11, -9, -11, 1, 10, -1, -10]

/-- Diagonal ray directions `dDIAGONAL`. -/
def dDIAGONAL : List Int := [9, 11, -9, -11]

/-- Orthogonal ray directions `dSTRAIGHT`. -/
def dSTRAIGHT : List Int := [1, 10, -1, -10]

/-- One ray walk of `attackersOf`: step by `d` from `from` until the first
non-empty cell; if that occupant has the sought color and one of the two
sought types, it attacks. The sentinel border stops every ray within the
supplied fuel on boards built by this engine (12 ≥ any ray length). -/
def rayHit (b : Board) (col t1 t2 : Nat) (d : Int) (fuel : Nat) (from0 : Int) :
    Option Int :=
  match fuel with
  | 0 => none
  | fuel + 1 =>
    let p := bread b from0
    if p = 255 then none
    else if p ≠ 0 then
      let (c, t) := identify p
      if c = col ∧ (t = t1 ∨ t = t2) then some from0 else none
    else rayHit b col t1 t2 d fuel (from0 + d)

/-- `attackersOf`: squares holding a piece of `col` attacking `sq`, in the
enumeration order of the Go loops (knights, kings, diagonal rays,
orthogonal rays, pawn captures). -/
def attackersOf (b : Board) (sq : Int) (col : Nat) : List Int :=
  let hits : List Int → Nat → List Int := fun ds t =>
    ds.filterMap fun d =>
      let p := bread b (sq + d)
      let (c, ty) := identify p
      if c = col ∧ ty = t then some (sq + d) else none
  let rays : List Int → Nat → Nat → List Int := fun ds t1 t2 =>
    ds.filterMap fun d => rayHit b col t1 t2 d 12 (sq + d)
  let pawnCaps := if col = cBLACK then dDIAGONAL.take 2 else dDIAGONAL.drop 2
  hits dKNIGHT pKNIGHT ++ hits dKING pKING ++
    rays dDIAGONAL pQUEEN pBISHOP ++ rays dSTRAIGHT pQUEEN pROOK ++
    hits pawnCaps pPAWN

/-- `piecesMovableTo`: `attackersOf` plus the pawn-push candidates. The Go
code inspects only the square(s) behind the target: it never checks
whether the target square itself is empty. -/
def piecesMovableTo (b : Board) (sq : Int) (col : Nat) : List Int :=
  let s := attackersOf b sq col
  let direction : Int := if col = cBLACK then 1 else -1
  let from0 := sq + direction * 10
  if bread b from0 ≠ 255 then
    if bread b from0 = 0 then
      let from1 := from0 + direction * 10
      let p := bread b from1
      let (c, t) := identify p
      if c = col ∧ t = pPAWN ∧ ¬hasMoved p then s ++ [from1] else s
    else
      let p := bread b from0
      let (c, t) := identify p
      if c = col ∧ t = pPAWN then s ++ [from0] else s
  else s

/-- `tryMove`: apply the move `csq → tosq`; in trial mode restore the
snapshot `{sq[tosq], sq[csq], epsq, wksq, bksq}` on every exit path. The
square of a pawn captured en passant is **not** part of the snapshot (the
Go source carries a `TODO rollback ep moves`). Returns the resulting
board and the `error` value. -/
def tryMove (try0 : Bool) (activeMove : Nat) (csq tosq : Int)
    (promotes : String) (b : Board) : Board × Option String :=
  let step : Int := if activeMove = cWHITE then 10 else -10
  let savedTosqP := bread b tosq
  let savedCsqP := bread b csq
  let savedEp := b.epsq
  let savedWk := b.wksq
  let savedBk := b.bksq
  let cPiece := bread b csq
  let (c, t) := identify cPiece
  let b1 :=
    if t = pPAWN then
      let b' :=
        if ¬hasMoved cPiece ∧ csq + 2 * step = tosq then { b with epsq := tosq - step }
        else
          let b'' := if tosq = b.epsq then bset b (b.epsq - step) 0 else b
          { b'' with epsq := 0 }
      let cP2 :=
        if promotes ≠ "" then
          let letter := (promotes.toList.getD 1 ' ')
          let idx := ['P', 'N', 'B', 'R', 'Q', 'K'].indexOf letter
          -- `strings.Index` yields -1 when absent, hence 0 after the +1;
          -- the SAN pattern in fact guarantees a hit
          newPiece activeMove (if idx = 6 then 0 else idx + 1) true
        else cPiece
      bset b' tosq (markedMoved cP2)
    else
      let b' := { bset b tosq (markedMoved cPiece) with epsq := 0 }
      if t = pKING then
        if c = cBLACK then { b' with bksq := tosq } else { b' with wksq := tosq }
      else b'
  let b2 := bset b1 csq 0
  let ksq := if activeMove = cWHITE then b2.wksq else b2.bksq
  let err :=
    if (attackersOf b2 ksq (opposite activeMove)).length ≠ 0 then
      some "invalid move. King is attacked"
    else none
  let bOut :=
    if try0 then
      { bset (bset b2 tosq savedTosqP) csq savedCsqP with
        epsq := savedEp, wksq := savedWk, bksq := savedBk }
    else b2
  (bOut, err)

/-- `strings.Index("PNBRQK", piece) + 1` for the single letters produced by
the SAN pattern. -/
def pieceTypOf (piece : String) : Nat :=
  match piece.toList with
  | [c] =>
    let idx := ['P', 'N', 'B', 'R', 'Q', 'K'].indexOf c
    if idx = 6 then 0 else idx + 1
  | _ => 0

/-- Substring test, `strings.Index(hay, needle) >= 0`. -/
def containsSub (hay needle : List Char) : Bool :=
  (List.range (hay.length + 1)).any fun i => needle.isPrefixOf (hay.drop i)

/-- The submatch of `rSANRE`
(`^(P?|[RNBQK])([a-h]?[1-8]?)?x?([a-h][1-8])(=[PRNBQK])?`) with Go's
leftmost-first (Perl-style) backtracking: alternatives and optional parts
are tried in preference order, the first full match giving the group
texts `(piece, fromHint, destination, promotion)`. -/
def sanreMatch (s : List Char) : Option (String × String × String × String) :=
  let g1cands : List (String × List Char) :=
    (match s with
     | 'P' :: rest => [("P", rest), ("", s)]
     | _ => [("", s)]) ++
    (match s with
     | c :: rest => if isPieceCh c && c ≠ 'P' then [(String.mk [c], rest)] else []
     | [] => [])
  let opt2 : (Char → Bool) → List Char → List (String × List Char) := fun p cs =>
    match cs with
    | c :: rest => if p c then [(String.mk [c], rest), ("", cs)] else [("", cs)]
    | [] => [("", cs)]
  g1cands.findSome? fun (g1, s1) =>
    (opt2 isFileCh s1).findSome? fun (h1, s2) =>
      (opt2 isRankCh s2).findSome? fun (h2, s3) =>
        (opt2 (· = 'x') s3).findSome? fun (_, s4) =>
          match s4 with
          | f :: r :: rest =>
            if isFileCh f && isRankCh r then
              let promo :=
                match rest with
                | '=' :: c :: _ => if isPieceCh c then String.mk ['=', c] else ""
                | _ => ""
              some (g1, h1 ++ h2, String.mk [f, r], promo)
            else none
          | _ => none

/-- `makeMoveFor`: null move, castling prefixes, SAN decode, candidate
generation, trial-based disambiguation (threading the board through the
trials, whose rollback is partial for en-passant captures), and the final
non-trial application. -/
def makeMoveFor (b : Board) (san : String) (activeMove : Nat) :
    Board × Option String :=
  if san = "--" then (b, none)
  else if ['O', '-', 'O', '-', 'O'].isPrefixOf san.toList then
    if activeMove = cWHITE then
      let b1 := bset (bset (bset (bset (bset b 21 0) 22 0)
        23 (newPiece cWHITE pKING true)) 24 (newPiece cWHITE pROOK true)) 25 0
      ({ b1 with wksq := 23, epsq := 0 }, none)
    else
      let b1 := bset (bset (bset (bset (bset b 91 0) 92 0)
        93 (newPiece cBLACK pKING true)) 94 (newPiece cBLACK pROOK true)) 95 0
      ({ b1 with bksq := 93, epsq := 0 }, none)
  else if ['O', '-', 'O'].isPrefixOf san.toList then
    if activeMove = cWHITE then
      let b1 := bset (bset (bset (bset b 25 0)
        26 (newPiece cWHITE pROOK true)) 27 (newPiece cWHITE pKING true)) 28 0
      ({ b1 with wksq := 27, epsq := 0 }, none)
    else
      let b1 := bset (bset (bset (bset b 95 0)
        96 (newPiece cBLACK pROOK true)) 97 (newPiece cBLACK pKING true)) 98 0
      ({ b1 with bksq := 97, epsq := 0 }, none)
  else
    match sanreMatch san.toList with
    | none => (b, some ("san is not a valid move: " ++ san))
    | some (piece0, fromHint0, dsq, promotes) =>
      let piece := if piece0 = "" then "P" else piece0
      let fromHint :=
        if piece0 = "" ∧ fromHint0 = "" then String.mk (dsq.toList.take 1)
        else fromHint0
      let pieceTyp := pieceTypOf piece
      let tosq := string2sq dsq
      let candidates := piecesMovableTo b tosq activeMove
      -- the Go `candidates == nil` test never fires: `attackersOf` starts
      -- from a non-nil empty slice
      let trial := candidates.foldl
        (fun (st : Board × List Int) candidate =>
          if (identify (bread st.1 candidate)).2 = pieceTyp ∧
              (fromHint = "" ∨ containsSub (sq2string candidate).toList fromHint.toList) then
            let (st', e) := tryMove true activeMove candidate tosq promotes st.1
            (st', if e = none then st.2 ++ [candidate] else st.2)
          else st) (b, [])
      if trial.2.length ≠ 1 then
        (trial.1, some ("candidate moves are not unique for " ++ san))
      else
        tryMove false activeMove (trial.2.headD 0) tosq promotes trial.1

/-! ### FEN decode (`NewBoardFromFen`) and encode (`Fen`) -/

/-- Accumulator pass behind `strFields`: `acc` is the reversed current run
of non-whitespace characters. -/
def fieldsGo : List Char → List Char → List (List Char)
  | [], acc => if acc = [] then [] else [acc.reverse]
  | c :: cs, acc =>
    if isWs c then
      if acc = [] then fieldsGo cs [] else acc.reverse :: fieldsGo cs []
    else fieldsGo cs (c :: acc)

/-- `strings.Fields`: the maximal non-whitespace runs of the input. -/
def strFields (l : List Char) : List (List Char) :=
  fieldsGo l []

/-- `strings.TrimSpace` (ASCII whitespace; a no-op on `strFields` output). -/
def trimSpace (l : List Char) : List Char :=
  ((l.dropWhile isWs).reverse.dropWhile isWs).reverse

/-- `strconv.Atoi`: optional sign followed by at least one digit. The
engine stores the value modulo 256 (`uint8` conversion); integer overflow
of 64-bit `int` is not modelled (no claim involves such inputs). -/
def atoiInt (l : List Char) : Option Int :=
  let (sign, ds) : Int × List Char :=
    match l with
    | '-' :: rest => (-1, rest)
    | '+' :: rest => (1, rest)
    | _ => (1, l)
  if ds ≠ [] ∧ ds.all isDigitCh then
    some (sign * (ds.foldl (fun a c => a * 10 + ((c.toNat : Int) - 48)) 0))
  else none

/-- The digit replacer of `NewBoardFromFen`: `"1"→"*"`, …, `"8"→"********"`;
all other characters pass through. -/
def replDigits (l : List Char) : List Char :=
  l.flatMap fun c =>
    if isRankCh c then List.replicate (c.toNat - 48) '*' else [c]

/-- `strings.Split(s, "/")`. -/
def splitSlash : List Char → List (List Char)
  | [] => [[]]
  | c :: cs =>
    if c = '/' then [] :: splitSlash cs
    else
      match splitSlash cs with
      | [] => [[c]]
      | r :: rs => (c :: r) :: rs

/-- The piece byte written for one placement character (the `switch` of the
rank loop); digits have already been replaced by `*`. -/
def cellOfChar (c : Char) : Nat :=
  if c = 'P' then 1 else if c = 'N' then 2 else if c = 'B' then 3
  else if c = 'R' then 4 else if c = 'Q' then 5 else if c = 'K' then 6
  else if c = 'p' then 129 else if c = 'n' then 130 else if c = 'b' then 131
  else if c = 'r' then 132 else if c = 'q' then 133 else if c = 'k' then 134
  else 0

/-- The inner file loop: write the 8 cells of one rank into row `base`,
tracking the king squares when a `K`/`k` is written. -/
def writeCells (st : List Nat × Int × Int) (base : Nat) :
    List Char → List Nat × Int × Int
  | [] => st
  | c :: cs =>
    let (s, wk, bk) := st
    let s' := s.set base (cellOfChar c)
    let wk' := if c = 'K' then (base : Int) else wk
    let bk' := if c = 'k' then (base : Int) else bk
    writeCells (s', wk', bk') (base + 1) cs

/-- Pad one (digit-replaced) rank with `********` and keep 8 cells. -/
def padRank (rank : List Char) : List Char :=
  (replDigits rank ++ List.replicate 8 '*').take 8

/-- The outer rank loop: rank `r` of the placement is written to row
`91 - 10 r`. -/
def writeRanks (st : List Nat × Int × Int) (r : Nat) :
    List (List Char) → List Nat × Int × Int
  | [] => st
  | rank :: rest => writeRanks (writeCells st (91 - 10 * r) (padRank rank)) (r + 1) rest

/-- Outcome of `NewBoardFromFen`: a board, the `"fen is wrong"` format
error, or a runtime panic (out-of-range field index). -/
inductive FenRes : Type where
  | ok : Board → FenRes
  | fenError : FenRes
  | panic : FenRes
deriving DecidableEq

/-- `NewBoardFromFen`: reject an all-whitespace input, read the active
color from field 1 and the move number from field 5 (an out-of-range
field access is a panic), then fill the mailbox from field 0, splitting
on `/` after appending nine slashes and keeping eight ranks. The
en-passant and castling fields are not restored (the Go code has the
en-passant restore commented out and a `TODO castling`). -/
def NewBoardFromFen (fen : String) : FenRes :=
  let parts := strFields fen.toList
  if parts.length = 0 then .fenError
  else
    match parts.get? 1 with
    | none => .panic
    | some p1 =>
      let active := colorOf (p1 = ['w'])
      match parts.get? 5 with
      | none => .panic
      | some p5 =>
        let moveNum :=
          match atoiInt p5 with
          | some n => (n.emod 256).toNat
          | none => 0
        let repr0 := trimSpace (parts.headD [])
        let ranks := (splitSlash (repr0 ++ List.replicate 9 '/')).take 8
        let (s, wk, bk) := writeRanks (List.replicate 120 255, 0, 0) 0 ranks
        .ok { sq := s, epsq := 0, wksq := wk, bksq := bk,
              activeMove := active, lastSAN := "", MoveWhite := false,
              MoveNumber := moveNum }

/-- `NewBoard`: the standard starting position, through the `fINITIAL`
constant of the source (note its empty middle ranks). -/
def NewBoard : FenRes :=
  NewBoardFromFen "rnbqkbnr/pppppppp/////PPPPPPPP/RNBQKBNR w KQkq - 0 1"

/-- The run-length encoder of the placement loop of `Fen`, with the
`nempty` accumulator of the Go code. -/
def rleCells (cells : List Nat) (nempty : Nat) : String :=
  match cells with
  | [] => if nempty > 0 then toString nempty else ""
  | p :: ps =>
    if pieceStr p = "_" then rleCells ps (nempty + 1)
    else (if nempty > 0 then toString nempty else "") ++ pieceStr p ++ rleCells ps 0

/-- Row `r` of the 8×8 view (`b.play[r]`, aliasing `sq[91-10r … 98-10r]`). -/
def boardRow (b : Board) (r : Nat) : List Nat :=
  (List.range 8).map fun f => b.sq.getD (91 - 10 * r + f) 255

/-- The piece-placement field produced by `Fen` (the part of the output
before the first space). -/
def fenPlacement (b : Board) : String :=
  String.intercalate "/" ((List.range 8).map fun r => rleCells (boardRow b r) 0)

/-- The castling-availability field of `Fen`, derived live from moved
flags. -/
def fenCastling (b : Board) : String :=
  let av := (if !hasMoved (bread b b.wksq) then
      (if !hasMoved (bread b 21) then "Q" else "") ++
      (if !hasMoved (bread b 28) then "K" else "") else "") ++
    (if !hasMoved (bread b b.bksq) then
      (if !hasMoved (bread b 91) then "q" else "") ++
      (if !hasMoved (bread b 98) then "k" else "") else "")
  if av = "" then "-" else av

/-- `Fen`: placement, active color, castling availability, en-passant
target (note the doubled space of the source when one is set), the
constant half-move clock, and the move number. -/
def Fen (b : Board) : String :=
  fenPlacement b ++ " " ++ (if b.activeMove = cWHITE then "w" else "b") ++
    " " ++ fenCastling b ++
    (if b.epsq = 0 then " -" else "  " ++ sq2string b.epsq) ++
    " 0" ++ " " ++ toString b.MoveNumber

/-- `MakeMove`: apply for the active color; on success advance the move
counter after a black move, flip the active color and record the SAN. -/
def MakeMove (b : Board) (san : String) : Board × Option String :=
  let (b', err) := makeMoveFor b san b.activeMove
  match err with
  | none =>
    let b2 :=
      if b'.activeMove = cBLACK then { b' with MoveNumber := (b'.MoveNumber + 1) % 256 }
      else b'
    ({ b2 with activeMove := opposite b2.activeMove,
               MoveWhite := !b2.MoveWhite, lastSAN := san }, none)
  | some e => (b', some e)

/-! ### Valid placement fields and their canonical normalization -/

/-- A FEN piece letter. -/
def pieceChar (c : Char) : Bool :=
  c ∈ ['P', 'N', 'B', 'R', 'Q', 'K', 'p', 'n', 'b', 'r', 'q', 'k']

/-- A character allowed in a valid placement rank: piece letter or a digit
1–8. -/
def validCellSrc (c : Char) : Bool :=
  pieceChar c || isRankCh c

/-- Number of squares a rank's text accounts for (digits count as runs). -/
def rankWidth (cs : List Char) : Nat :=
  (cs.map fun c => if isRankCh c then c.toNat - 48 else 1).sum

/-- A valid rank: only piece letters and digits, describing 8 squares. -/
def validRank (cs : List Char) : Bool :=
  cs.all validCellSrc && rankWidth cs = 8

/-- A valid piece-placement field: 8 `/`-separated ranks, each valid. -/
def validPlacement (x : List Char) : Bool :=
  (splitSlash x).length = 8 && (splitSlash x).all validRank

/-- A cell character after digit expansion: piece letter or `*`. -/
def validCell (c : Char) : Bool :=
  pieceChar c || c = '*'

/-- Modelled from the spec: the run-length encoder of the canonical
normalization — empties (`*`) are counted into digits, piece letters are
kept verbatim. -/
def rleRank (cells : List Char) (nempty : Nat) : String :=
  match cells with
  | [] => if nempty > 0 then toString nempty else ""
  | c :: cs =>
    if c = '*' then rleRank cs (nempty + 1)
    else (if nempty > 0 then toString nempty else "") ++ String.mk [c] ++ rleRank cs 0

/-- Modelled from the spec: one rank of the canonical normalization —
expand digits into runs of empty squares, then re-encode with run-length
digits. -/
def normalizeRank (cs : List Char) : String :=
  rleRank (replDigits cs) 0

/-- Modelled from the spec: the canonical run-length-encoded normalization
of a placement field, rank by rank. -/
def normalize (x : List Char) : String :=
  String.intercalate "/" ((splitSlash x).map normalizeRank)

/-! ## Concrete positions and extractors used by the theorems -/

/-- Fallback board (never reached by the extractors below). -/
def boardDefault : Board :=
  { sq := [], epsq := 0, wksq := 0, bksq := 0, activeMove := 0,
    lastSAN := "", MoveWhite := false, MoveNumber := 0 }

/-- Extract the board of a successful FEN decode. -/
def boardOf (r : FenRes) : Board :=
  match r with
  | .ok b => b
  | _ => boardDefault

/-- Whether a parse returned normally. -/
def isOkP (r : PRes) : Bool :=
  match r with
  | .ok _ => true
  | _ => false

/-- The `j`-th alternative variation of the `i`-th ply of a parse result. -/
def ravOf (r : PRes) (i j : Nat) : Variation :=
  match r with
  | .ok (v, _) => (v.Plies.getD i (.mk "" [] "" [])).Variations.getD j emptyVariation
  | _ => emptyVariation

/-- The standard starting position. -/
def iniBoard : Board := boardOf NewBoard

/-- The position after `1. e4` from the start. -/
def afterE4 : Board := (MakeMove iniBoard "e4").1

/-- The position after `1. e4 e5`. -/
def afterE4E5 : Board := (MakeMove afterE4 "e5").1

/-- White pawn on e3 (square 45), black pawn on e4 (square 55): a board
whose target square e4 is occupied while a white pawn sits right behind. -/
def pushBoard : Board := boardOf (NewBoardFromFen "8/8/8/8/4p3/4P3/8/8 w - - 0 1")

/-- White pawn on e4 (square 55), black pawn on d4 (square 54), and the
en-passant target set to e3 (square 45): the state right after a white
double push, ready for a black en-passant capture. -/
def epBoard : Board :=
  { boardOf (NewBoardFromFen "rnbqkbnr/ppp1pppp/8/8/3pP3/8/PPPP1PPP/RNBQKBNR b KQkq e3 0 1")
    with epsq := 45 }

theorem setResult_Result (v : Variation) (s : String) :
    (v.setResult s).Result = s := by
  cases v
  rfl

/-! ### Start-field lemmas for `generatePlies` (used for C9) -/

theorem setResult_MoveNumber (v : Variation) (s : String) :
    (v.setResult s).MoveNumber = v.MoveNumber := by
  cases v
  rfl

theorem setResult_WhiteMove (v : Variation) (s : String) :
    (v.setResult s).WhiteMove = v.WhiteMove := by
  cases v
  rfl

theorem addPly_MoveNumber (v : Variation) (p : Ply) :
    (v.addPly p).MoveNumber = v.MoveNumber := by
  cases v
  rfl

theorem addPly_WhiteMove (v : Variation) (p : Ply) :
    (v.addPly p).WhiteMove = v.WhiteMove := by
  cases v
  rfl

theorem updPly_MoveNumber (v : Variation) (f : Ply → Ply) :
    (v.updPly f).MoveNumber = v.MoveNumber := by
  cases v
  rfl

theorem updPly_WhiteMove (v : Variation) (f : Ply → Ply) :
    (v.updPly f).WhiteMove = v.WhiteMove := by
  cases v
  rfl

theorem addComment_MoveNumber (v : Variation) (s : String) :
    (v.addComment s).MoveNumber = v.MoveNumber := by
  cases v
  rfl

theorem addComment_WhiteMove (v : Variation) (s : String) :
    (v.addComment s).WhiteMove = v.WhiteMove := by
  cases v
  rfl

theorem setStart_MoveNumber (v : Variation) (n : Nat) (w : Bool) :
    (v.setStart n w).MoveNumber = n := by
  cases v
  rfl

theorem setStart_WhiteMove (v : Variation) (n : Nat) (w : Bool) :
    (v.setStart n w).WhiteMove = w := by
  cases v
  rfl

/-- A normal `prepMove` result carries the variation with its start fields
unchanged (only the last ply's annotation list can have been touched). -/
theorem prepMove_start (val : String) (v : Variation) (hp : Bool)
    (san : String) (v0 : Variation) (h : prepMove val v hp = .ok (san, v0)) :
    v0.MoveNumber = v.MoveNumber ∧ v0.WhiteMove = v.WhiteMove := by
  unfold prepMove at h
  repeat' split at h
  all_goals first
    | exact Except.noConfusion h
    | (injection h with h'; injection h' with ha hb; subst hb;
       exact ⟨rfl, rfl⟩)
    | (injection h with h'; injection h' with ha hb; subst hb;
       exact ⟨updPly_MoveNumber v _, updPly_WhiteMove v _⟩)

set_option maxHeartbeats 1000000 in
/-- Once a variation's starting move number is nonzero, `generatePlies`
never changes its starting move number or side: every successful parse
either preserves both start fields or started from move number 0 (the
only state the integer and move cases re-seed). -/
theorem genPlies_ok_start :
    ∀ (fuel : Nat) (pend : Option Tok) (text : List Char) (v : Variation)
      (hp inRav : Bool) (n : Nat) (w : Bool) (out : Variation) (rest : List Char),
      genPlies fuel pend text v hp inRav n w = .ok (out, rest) →
      (out.MoveNumber = v.MoveNumber ∧ out.WhiteMove = v.WhiteMove) ∨
        v.MoveNumber = 0 := by
  intro fuel
  induction fuel with
  | zero =>
    intro pend text v hp inRav n w out rest h
    simp [genPlies] at h
  | succ f ih =>
    intro pend text v hp inRav n w out rest h
    simp only [genPlies] at h
    split at h
    · exact Except.noConfusion h
    · split at h
      -- pgnRPAREN
      · split at h
        · injection h with h'
          injection h' with ha hb
          subst ha
          exact Or.inl ⟨setResult_MoveNumber v _, setResult_WhiteMove v _⟩
        · exact Except.noConfusion h
      -- pgnRESULT
      · split at h
        · injection h with h'
          injection h' with ha hb
          subst ha
          exact Or.inl ⟨setResult_MoveNumber v _, setResult_WhiteMove v _⟩
        · rcases ih _ _ _ _ _ _ _ _ _ h with hpres | hz
          · exact Or.inl (by
              simpa [setResult_MoveNumber, setResult_WhiteMove] using hpres)
          · exact Or.inr (by simpa [setResult_MoveNumber] using hz)
      -- pgnASTERISK
      · split at h
        · injection h with h'
          injection h' with ha hb
          subst ha
          exact Or.inl ⟨setResult_MoveNumber v _, setResult_WhiteMove v _⟩
        · rcases ih _ _ _ _ _ _ _ _ _ h with hpres | hz
          · exact Or.inl (by
              simpa [setResult_MoveNumber, setResult_WhiteMove] using hpres)
          · exact Or.inr (by simpa [setResult_MoveNumber] using hz)
      -- pgnEOF
      · split at h
        · exact Except.noConfusion h
        · injection h with h'
          injection h' with ha hb
          subst ha
          exact Or.inl ⟨setResult_MoveNumber v _, setResult_WhiteMove v _⟩
      -- pgnINTEGER
      · split at h
        · exact Except.noConfusion h
        · split at h
          · split at h
            · exact Except.noConfusion h
            · split at h
              · exact Except.noConfusion h
              · exact ih _ _ _ _ _ _ _ _ _ h
          · rename_i hz0
            exact Or.inr (by omega)
      -- pgnSYMBOL
      · split at h
        · exact Except.noConfusion h
        · rename_i san v0 heqp
          have hps := prepMove_start _ _ _ _ _ heqp
          split at h
          · rename_i hz
            rw [addPly_MoveNumber] at hz
            exact Or.inr (by omega)
          · rcases ih _ _ _ _ _ _ _ _ _ h with hpres | hz2
            · exact Or.inl (by
                rw [addPly_MoveNumber, addPly_WhiteMove, hps.1, hps.2] at hpres
                exact hpres)
            · rw [addPly_MoveNumber, hps.1] at hz2
              exact Or.inr hz2
      -- pgnIDENTIFIER
      · split at h
        · exact Except.noConfusion h
        · rename_i san v0 heqp
          have hps := prepMove_start _ _ _ _ _ heqp
          split at h
          · rename_i hz
            rw [addPly_MoveNumber] at hz
            exact Or.inr (by omega)
          · rcases ih _ _ _ _ _ _ _ _ _ h with hpres | hz2
            · exact Or.inl (by
                rw [addPly_MoveNumber, addPly_WhiteMove, hps.1, hps.2] at hpres
                exact hpres)
            · rw [addPly_MoveNumber, hps.1] at hz2
              exact Or.inr hz2
      -- pgnNAG
      · split at h
        · rcases ih _ _ _ _ _ _ _ _ _ h with hpres | hz
          · exact Or.inl (by
              simpa [updPly_MoveNumber, updPly_WhiteMove] using hpres)
          · exact Or.inr (by simpa [updPly_MoveNumber] using hz)
        · exact Except.noConfusion h
      -- pgnCOMMENT
      · rcases ih _ _ _ _ _ _ _ _ _ h with hpres | hz
        · refine Or.inl ?_
          rcases hpres with ⟨h1, h2⟩
          constructor
          · rw [h1]
            split <;> simp [updPly_MoveNumber, addComment_MoveNumber]
          · rw [h2]
            split <;> simp [updPly_WhiteMove, addComment_WhiteMove]
        · refine Or.inr ?_
          rw [← hz]
          split <;> simp [updPly_MoveNumber, addComment_MoveNumber]
      -- pgnLPAREN
      · split at h
        · exact Except.noConfusion h
        · exact Except.noConfusion h
        · exact Except.noConfusion h
        · split at h
          · rcases ih _ _ _ _ _ _ _ _ _ h with hpres | hz
            · exact Or.inl (by
                simpa [updPly_MoveNumber, updPly_WhiteMove] using hpres)
            · exact Or.inr (by simpa [updPly_MoveNumber] using hz)
          · exact Except.noConfusion h
      -- default
      · exact Except.noConfusion h

/-- A nested parse started on a fresh variation whose first token is a
move (symbol or identifier) seeds the variation's start with the running
`(thisMoveNumber, thisPlyWhite)` it was called with; when that move
number is nonzero, the returned variation still records exactly those
values. -/
theorem genPlies_move_first_start (fuel : Nat) (text text' : List Char)
    (tok : Tok) (inRav : Bool) (n : Nat) (w : Bool)
    (out : Variation) (rest : List Char)
    (hnext : next text = some (tok, text'))
    (htyp : tok.typ = .SYMBOL ∨ tok.typ = .IDENTIFIER)
    (hn : n ≠ 0)
    (h : genPlies fuel none text emptyVariation false inRav n w = .ok (out, rest)) :
    out.MoveNumber = n ∧ out.WhiteMove = w := by
  cases fuel with
  | zero => simp [genPlies] at h
  | succ f =>
    obtain ⟨ttyp, tval⟩ := tok
    simp only [genPlies] at h
    rw [hnext] at h
    dsimp only at h
    rcases htyp with ht | ht <;>
      (have ht' : ttyp = _ := ht
       subst ht'
       dsimp only at h
       split at h
       · exact Except.noConfusion h
       · rename_i san v0 heqp
         have hps := prepMove_start _ _ _ _ _ heqp
         split at h
         · rcases genPlies_ok_start _ _ _ _ _ _ _ _ _ _ h with ⟨h1, h2⟩ | hz
           · rw [setStart_MoveNumber] at h1
             rw [setStart_WhiteMove] at h2
             exact ⟨h1, h2⟩
           · rw [setStart_MoveNumber] at hz
             exact absurd hz hn
         · rename_i hnz
           rw [addPly_MoveNumber, hps.1] at hnz
           simp [emptyVariation, Variation.MoveNumber] at hnz)

/-! ### Lemmas for the FEN placement round trip (C6) -/

theorem splitSlash_ne_nil : ∀ l : List Char, splitSlash l ≠ [] := by
  intro l
  induction l with
  | nil => simp [splitSlash]
  | cons c cs ih =>
    by_cases h : c = '/'
    · simp [splitSlash, h]
    · simp only [splitSlash, h, if_false]
      split
      · simp
      · simp

theorem splitSlash_replicate : ∀ k : Nat,
    splitSlash (List.replicate k '/') = List.replicate (k + 1) [] := by
  intro k
  induction k with
  | zero => simp [splitSlash]
  | succ n ih => simp [List.replicate, splitSlash, ih]

theorem splitSlash_append_replicate : ∀ (a : List Char) (k : Nat),
    splitSlash (a ++ List.replicate k '/') =
      splitSlash a ++ List.replicate k [] := by
  intro a
  induction a with
  | nil =>
    intro k
    simp [splitSlash_replicate, splitSlash, List.replicate_succ]
  | cons c cs ih =>
    intro k
    by_cases h : c = '/'
    · simp [splitSlash, h, ih]
    · simp only [List.cons_append, splitSlash, h, if_false]
      simp only [List.append_eq]
      rw [ih]
      have hne := splitSlash_ne_nil cs
      cases hs : splitSlash cs with
      | nil => exact absurd hs hne
      | cons r rs => simp

theorem replDigits_length : ∀ cs : List Char,
    (replDigits cs).length = rankWidth cs := by
  intro cs
  induction cs with
  | nil => simp [replDigits, rankWidth]
  | cons c cs ih =>
    by_cases h : isRankCh c
    · simp [replDigits, rankWidth, h, List.flatMap_cons] at *
      omega
    · simp [replDigits, rankWidth, h, List.flatMap_cons] at *
      omega

theorem padRank_eq_of_width (cs : List Char) (h : rankWidth cs = 8) :
    padRank cs = replDigits cs := by
  unfold padRank
  have hl : (replDigits cs).length = 8 := by rw [replDigits_length, h]
  rw [← hl, List.take_left]

theorem padRank_length (cs : List Char) : (padRank cs).length = 8 := by
  unfold padRank
  simp

theorem replDigits_validCell (cs : List Char) (h : cs.all validCellSrc) :
    ∀ c ∈ replDigits cs, validCell c = true := by
  induction cs with
  | nil => simp [replDigits]
  | cons d ds ih =>
    simp only [List.all_cons, Bool.and_eq_true] at h
    intro c hc
    simp only [replDigits, List.flatMap_cons, List.mem_append] at hc
    rcases hc with hc | hc
    · by_cases hd : isRankCh d
      · simp [hd] at hc
        simp [validCell, hc.2]
      · simp [hd] at hc
        subst hc
        have := h.1
        simp [validCellSrc, hd] at this
        simp [validCell, this]
    · exact ih h.2 c (by simpa [replDigits] using hc)

theorem getD_set_ne' (l : List Nat) (i j v d : Nat) (h : i ≠ j) :
    (l.set i v).getD j d = l.getD j d := by
  simp [List.getD_eq_getElem?_getD, List.getElem?_set_ne h]

theorem getD_set_eq' (l : List Nat) (i v d : Nat) (h : i < l.length) :
    (l.set i v).getD i d = v := by
  simp [List.getD_eq_getElem?_getD, List.getElem?_set_self, h]

theorem writeCells_length : ∀ (cells : List Char) (st : List Nat × Int × Int)
    (base : Nat), (writeCells st base cells).1.length = st.1.length := by
  intro cells
  induction cells with
  | nil => intro st base; simp [writeCells]
  | cons c cs ih =>
    intro st base
    obtain ⟨s, wk, bk⟩ := st
    simp [writeCells, ih]

theorem writeCells_getD_lo : ∀ (cells : List Char) (st : List Nat × Int × Int)
    (base j : Nat), j < base →
    (writeCells st base cells).1.getD j 255 = st.1.getD j 255 := by
  intro cells
  induction cells with
  | nil => intro st base j _; simp [writeCells]
  | cons c cs ih =>
    intro st base j hj
    obtain ⟨s, wk, bk⟩ := st
    rw [writeCells, ih _ _ _ (by omega), getD_set_ne' _ _ _ _ _ (by omega)]

theorem writeCells_getD_hi : ∀ (cells : List Char) (st : List Nat × Int × Int)
    (base j : Nat), base + cells.length ≤ j →
    (writeCells st base cells).1.getD j 255 = st.1.getD j 255 := by
  intro cells
  induction cells with
  | nil => intro st base j _; simp [writeCells]
  | cons c cs ih =>
    intro st base j hj
    obtain ⟨s, wk, bk⟩ := st
    simp only [List.length_cons] at hj
    rw [writeCells, ih _ _ _ (by omega), getD_set_ne' _ _ _ _ _ (by omega)]

theorem writeCells_getD_own : ∀ (cells : List Char) (st : List Nat × Int × Int)
    (base i : Nat), i < cells.length → base + cells.length ≤ st.1.length →
    (writeCells st base cells).1.getD (base + i) 255 =
      cellOfChar (cells.getD i ' ') := by
  intro cells
  induction cells with
  | nil => intro st base i hi _; simp at hi
  | cons c cs ih =>
    intro st base i hi hlen
    obtain ⟨s, wk, bk⟩ := st
    simp only [List.length_cons] at hi hlen
    cases i with
    | zero =>
      rw [writeCells]
      have hlo : base + 0 < base + 1 := by omega
      rw [writeCells_getD_lo _ _ _ _ (by omega)]
      simpa using getD_set_eq' s base (cellOfChar c) 255 (by omega)
    | succ i' =>
      rw [writeCells]
      have : base + (i' + 1) = (base + 1) + i' := by omega
      rw [this, ih _ _ _ (by omega) (by simpa using by omega)]
      simp

theorem writeRanks_length : ∀ (ranks : List (List Char))
    (st : List Nat × Int × Int) (r : Nat),
    (writeRanks st r ranks).1.length = st.1.length := by
  intro ranks
  induction ranks with
  | nil => intro st r; simp [writeRanks]
  | cons rank rest ih =>
    intro st r
    rw [writeRanks, ih, writeCells_length]

theorem writeRanks_getD_hi : ∀ (ranks : List (List Char))
    (st : List Nat × Int × Int) (r j : Nat),
    91 - 10 * r + 8 ≤ j →
    (writeRanks st r ranks).1.getD j 255 = st.1.getD j 255 := by
  intro ranks
  induction ranks with
  | nil => intro st r j _; simp [writeRanks]
  | cons rank rest ih =>
    intro st r j hj
    rw [writeRanks, ih _ _ _ (by omega),
      writeCells_getD_hi _ _ _ _ (by rw [padRank_length]; omega)]

theorem writeRanks_getD_own : ∀ (ranks : List (List Char))
    (st : List Nat × Int × Int) (r q i : Nat),
    q < ranks.length → i < 8 → r + ranks.length ≤ 8 → st.1.length = 120 →
    (writeRanks st r ranks).1.getD (91 - 10 * (r + q) + i) 255 =
      cellOfChar ((padRank (ranks.getD q [])).getD i ' ') := by
  intro ranks
  induction ranks with
  | nil => intro st r q i hq _ _ _; simp at hq
  | cons rank rest ih =>
    intro st r q i hq hi hr hlen
    simp only [List.length_cons] at hq hr
    cases q with
    | zero =>
      rw [writeRanks]
      rw [writeRanks_getD_hi _ _ _ _ (by omega)]
      have h8 : (padRank rank).length = 8 := padRank_length rank
      have := writeCells_getD_own (padRank rank) st (91 - 10 * r) i
        (by omega) (by rw [h8, hlen]; omega)
      simp only [Nat.add_zero]
      rw [this]
      simp
    | succ q' =>
      rw [writeRanks]
      have heq : 91 - 10 * (r + (q' + 1)) + i = 91 - 10 * ((r + 1) + q') + i := by
        omega
      rw [heq, ih _ _ _ _ (by omega) hi (by omega)
        (by rw [writeCells_length, hlen])]
      simp

theorem cell_pieceStr (c : Char) (h : validCell c = true) :
    (c = '*' ∧ pieceStr (cellOfChar c) = "_") ∨
    (pieceStr (cellOfChar c) = String.mk [c] ∧
      pieceStr (cellOfChar c) ≠ "_") := by
  simp only [validCell, pieceChar, Bool.or_eq_true, decide_eq_true_eq,
    List.mem_cons, List.not_mem_nil, or_false] at h
  rcases h with (rfl | rfl | rfl | rfl | rfl | rfl | rfl | rfl | rfl | rfl | rfl | rfl) | rfl
  · exact Or.inr (by constructor <;> decide)
  · exact Or.inr (by constructor <;> decide)
  · exact Or.inr (by constructor <;> decide)
  · exact Or.inr (by constructor <;> decide)
  · exact Or.inr (by constructor <;> decide)
  · exact Or.inr (by constructor <;> decide)
  · exact Or.inr (by constructor <;> decide)
  · exact Or.inr (by constructor <;> decide)
  · exact Or.inr (by constructor <;> decide)
  · exact Or.inr (by constructor <;> decide)
  · exact Or.inr (by constructor <;> decide)
  · exact Or.inr (by constructor <;> decide)
  · exact Or.inl (by constructor <;> decide)

theorem rle_export : ∀ (cells : List Char) (n : Nat),
    (∀ c ∈ cells, validCell c = true) →
    rleCells (cells.map cellOfChar) n = rleRank cells n := by
  intro cells
  induction cells with
  | nil => intro n _; simp [rleCells, rleRank]
  | cons c cs ih =>
    intro n hv
    have hc := cell_pieceStr c (hv c (by simp))
    have hcs : ∀ x ∈ cs, validCell x = true := fun x hx => hv x (by simp [hx])
    rcases hc with ⟨rfl, hps⟩ | ⟨hps, hne⟩
    · simp only [List.map_cons, rleCells, rleRank, hps, if_true]
      simpa using ih (n + 1) hcs
    · have hcstar : ¬(c = '*') := fun he => by
        rw [he] at hps hne
        exact hne (by decide)
      simp only [List.map_cons, rleCells, rleRank, hps, hcstar, if_false]
      rw [if_neg (hps ▸ hne), ih 0 hcs]

theorem fieldsGo_no_ws : ∀ (l acc : List Char),
    (∀ c ∈ acc, isWs c = false) →
    ∀ f ∈ fieldsGo l acc, ∀ c ∈ f, isWs c = false := by
  intro l
  induction l with
  | nil =>
    intro acc hacc f hf c hc
    simp only [fieldsGo] at hf
    split at hf
    · simp at hf
    · simp at hf
      subst hf
      exact hacc c (by simpa using hc)
  | cons x xs ih =>
    intro acc hacc f hf c hc
    simp only [fieldsGo] at hf
    by_cases hx : isWs x
    · simp only [hx, if_true] at hf
      split at hf
      · exact ih [] (by simp) f hf c hc
      · simp only [List.mem_cons] at hf
        rcases hf with rfl | hf
        · exact hacc c (by simpa using hc)
        · exact ih [] (by simp) f hf c hc
    · simp only [hx, if_false, Bool.false_eq_true] at hf
      refine ih (x :: acc) ?_ f hf c hc
      intro d hd
      rcases List.mem_cons.mp hd with rfl | hd
      · simpa using hx
      · exact hacc d hd

theorem trimSpace_eq_self (l : List Char) (h : ∀ c ∈ l, isWs c = false) :
    trimSpace l = l := by
  unfold trimSpace
  have h1 : l.dropWhile isWs = l := by
    cases l with
    | nil => simp
    | cons c cs => simp [List.dropWhile, h c (by simp)]
  rw [h1]
  have h2 : l.reverse.dropWhile isWs = l.reverse := by
    cases hr : l.reverse with
    | nil => simp
    | cons c cs =>
      have : c ∈ l := by
        rw [← List.mem_reverse, hr]
        simp
      simp [List.dropWhile, h c this]
  rw [h2, List.reverse_reverse]

theorem fenPlacement_writeRanks (b : Board) (ranks : List (List Char))
    (hsq : b.sq = (writeRanks (List.replicate 120 255, 0, 0) 0 ranks).1)
    (h8 : ranks.length = 8)
    (hv : ∀ rank ∈ ranks, validRank rank = true) :
    fenPlacement b = String.intercalate "/" (ranks.map normalizeRank) := by
  unfold fenPlacement
  congr 1
  apply List.ext_getElem
  · simp [h8]
  · intro i h1 h2
    simp only [List.getElem_map, List.getElem_range]
    have hi8 : i < 8 := by simpa using h1
    have hilen : i < ranks.length := by omega
    have hvr := hv _ (List.getElem_mem hilen)
    simp only [validRank, Bool.and_eq_true, decide_eq_true_eq] at hvr
    have hpad : padRank ranks[i] = replDigits ranks[i] :=
      padRank_eq_of_width _ hvr.2
    have hcells : ∀ c ∈ padRank ranks[i], validCell c = true := by
      rw [hpad]
      exact replDigits_validCell _ hvr.1
    have hrow : boardRow b i = (padRank ranks[i]).map cellOfChar := by
      apply List.ext_getElem
      · simp [boardRow, padRank_length]
      · intro f hf1 hf2
        simp only [boardRow, List.getElem_map, List.getElem_range]
        have hf8 : f < 8 := by simpa [boardRow] using hf1
        have hown := writeRanks_getD_own ranks (List.replicate 120 255, 0, 0)
          0 i f (by omega) hf8 (by omega) (by simp)
        simp only [Nat.zero_add] at hown
        rw [hsq, hown]
        have hgd : (padRank (ranks.getD i [])) = padRank ranks[i] := by
          rw [List.getD_eq_getElem ranks [] hilen]
        rw [hgd, List.getD_eq_getElem _ ' ' (by rw [padRank_length]; omega)]
    rw [hrow, rle_export _ 0 hcells, normalizeRank, ← hpad]

/-- C6: decoding a FEN whose placement field is a valid `x` (surrounding
whitespace notwithstanding: the hypothesis constrains only the
whitespace-split fields) succeeds, and the placement field the board then
exports equals the canonical run-length-encoded normalization of `x` —
digits expanded to empty squares, then empties re-encoded as digits. -/
theorem fen_placement_roundtrip (fen : String) (x : List Char) (rest : List (List Char))
    (hf : strFields fen.toList = x :: rest)
    (hr : 5 ≤ rest.length)
    (hx : validPlacement x = true) :
    ∃ b, NewBoardFromFen fen = .ok b ∧ fenPlacement b = normalize x := by
  -- name the five following fields
  obtain ⟨p1, rest1, rfl⟩ : ∃ p1 r1, rest = p1 :: r1 := by
    cases rest with
    | nil => simp at hr
    | cons a b => exact ⟨a, b, rfl⟩
  obtain ⟨p2, rest2, rfl⟩ : ∃ p2 r2, rest1 = p2 :: r2 := by
    cases rest1 with
    | nil => simp at hr
    | cons a b => exact ⟨a, b, rfl⟩
  obtain ⟨p3, rest3, rfl⟩ : ∃ p3 r3, rest2 = p3 :: r3 := by
    cases rest2 with
    | nil => simp at hr
    | cons a b => exact ⟨a, b, rfl⟩
  obtain ⟨p4, rest4, rfl⟩ : ∃ p4 r4, rest3 = p4 :: r4 := by
    cases rest3 with
    | nil => simp at hr
    | cons a b => exact ⟨a, b, rfl⟩
  obtain ⟨p5, rest5, rfl⟩ : ∃ p5 r5, rest4 = p5 :: r5 := by
    cases rest4 with
    | nil => simp at hr
    | cons a b => exact ⟨a, b, rfl⟩
  -- the placement field, coming out of strFields, holds no whitespace
  have hnws : ∀ c ∈ x, isWs c = false := by
    have hmem : x ∈ strFields fen.toList := by
      rw [hf]
      simp
    exact fun c hc => fieldsGo_no_ws fen.toList [] (by simp) x
      (by rw [strFields] at hmem; exact hmem) c hc
  have htrim : trimSpace x = x := trimSpace_eq_self x hnws
  -- the ranks kept are exactly the ranks of x
  have hlen8 : (splitSlash x).length = 8 := by
    simp only [validPlacement, Bool.and_eq_true, decide_eq_true_eq] at hx
    exact hx.1
  have hranks : (splitSlash (trimSpace x ++ List.replicate 9 '/')).take 8 =
      splitSlash x := by
    rw [htrim, splitSlash_append_replicate, ← hlen8, List.take_left]
  simp only [NewBoardFromFen, hf]
  refine ⟨_, rfl, ?_⟩
  simp only [List.headD_cons]
  rw [hranks]
  have hvAll : ∀ rank ∈ splitSlash x, validRank rank = true := by
    simp only [validPlacement, Bool.and_eq_true, decide_eq_true_eq,
      List.all_eq_true] at hx
    exact hx.2
  unfold Gochess.normalize
  exact fenPlacement_writeRanks _ (splitSlash x) rfl hlen8 hvAll

/-- C6 (witness): the round trip on a concrete FEN with extra whitespace
and a non-canonical rank `44`, which normalizes (and exports) as `8`. -/
theorem fen_placement_roundtrip_witness :
    ∃ b, NewBoardFromFen "  rnbqkbnr/pp1ppppp/44/2p5/8/8/PPPPPPPP/RNBQKBNR   w KQkq - 0 1" = .ok b ∧
      fenPlacement b = normalize "rnbqkbnr/pp1ppppp/44/2p5/8/8/PPPPPPPP/RNBQKBNR".toList :=
  fen_placement_roundtrip
    "  rnbqkbnr/pp1ppppp/44/2p5/8/8/PPPPPPPP/RNBQKBNR   w KQkq - 0 1"
    "rnbqkbnr/pp1ppppp/44/2p5/8/8/PPPPPPPP/RNBQKBNR".toList
    [['w'], ['K', 'Q', 'k', 'q'], ['-'], ['0'], ['1']]
    (by decide) (by decide) (by decide)

/-! ## Claims -/

/-- C1: the claim says a trial `tryMove` restores the entire board state.
The trial snapshot holds only `{sq[tosq], sq[csq], epsq, wksq, bksq}`, so a
trial en-passant capture (black d4×e3 e.p. here) leaves the captured
pawn's square e4 (index 55) zeroed: the white pawn that was there before
the trial is gone afterwards. The Go source itself carries the comment
`TODO rollback ep moves`. -/
theorem tryMove_trial_ep_square_not_restored :
    bread epBoard 55 = 1 ∧
    bread (tryMove true cBLACK 54 45 "" epBoard).1 55 = 0 := by
  constructor
  · rfl
  · rfl

/-- C2: the claim says any input with fewer than the minimum number of FEN
fields yields a format error. Only an input with zero fields does; a
one-field input (and any input with 2–5 fields, such as a placement plus
color) reaches the unguarded accesses `parts[1]` / `parts[5]` and panics
with an index-out-of-range fault instead of returning an error. -/
theorem newBoardFromFen_short_input_panics :
    NewBoardFromFen "x" = .panic ∧
    NewBoardFromFen "8/8/8/8/8/8/8/8 w" = .panic ∧
    NewBoardFromFen "" = .fenError := by
  refine ⟨rfl, rfl, rfl⟩

/-- C3: the claim says a move token with a trailing annotation glyph is
stripped and its code lands on that token's own ply, e.g. `"Qxf7??"` gives
a ply `"Qxf7"` with Nags `[4]`. In the code the tokenizer's word-character
set has no `!`/`?`, so the token ends before the glyph (`next` returns
identifier `"Qxf7"` leaving `"??"`), the leftover glyph lexes as an empty
unknown-kind token, and the parse fails — both as the first ply and after
an earlier move. The stripping ladder of `generatePlies` is unreachable. -/
theorem annotated_move_token_never_parses :
    next "Qxf7??".toList = some (⟨.IDENTIFIER, "Qxf7"⟩, ['?', '?']) ∧
    parseMovesText 50 "Qxf7??" = .error (.parseErr "unexpected token") ∧
    parseMovesText 50 "e4 Qxf7?? *" = .error (.parseErr "unexpected token") := by
  refine ⟨rfl, rfl, rfl⟩

/-- C4: the claim says an unterminated string is returned as a normal
string token consuming the rest of the input. The string branch of
`next` re-slices at `pos+1` where `pos` has reached the input length (or
length+1 after a trailing backslash), so the Go slice expression has its
low bound beyond its high bound and panics; no token is returned. -/
theorem next_unterminated_string_panics :
    next ['"', 'a', 'b', 'c'] = none ∧
    next ['"', 'a', 'b', '\\'] = none := by
  refine ⟨rfl, rfl⟩

/-- C5 (counterexample): the claim says a forward-push pawn candidate is
returned only when the target square is empty. On `pushBoard` the target
e4 (55) holds a black pawn (129 ≠ 0), no capture attacks it, and yet
`piecesMovableTo` returns the white pawn behind it as a push candidate. -/
theorem piecesMovableTo_push_onto_occupied :
    bread pushBoard 55 = 129 ∧
    attackersOf pushBoard 55 cWHITE = [] ∧
    piecesMovableTo pushBoard 55 cWHITE = [45] := by
  refine ⟨rfl, rfl, rfl⟩

/-- C5 (amended): `piecesMovableTo` adds the square immediately behind the
target as a single-push candidate whenever it holds a pawn of the moving
color — the emptiness of the target square itself is never consulted. -/
theorem piecesMovableTo_includes_pawn_behind (b : Board) (sq : Int) (col : Nat)
    (h1 : bread b (sq + (if col = cBLACK then 1 else -1) * 10) ≠ 255)
    (h2 : bread b (sq + (if col = cBLACK then 1 else -1) * 10) ≠ 0)
    (h3 : identify (bread b (sq + (if col = cBLACK then 1 else -1) * 10)) = (col, pPAWN)) :
    sq + (if col = cBLACK then 1 else -1) * 10 ∈ piecesMovableTo b sq col := by
  unfold piecesMovableTo
  by_cases hc : col = cBLACK <;>
    simp only [hc, if_true, if_false, one_mul, neg_mul] at h1 h2 h3 ⊢ <;>
    simp [h1, h2, h3]

/-- C5 (witness): the amended statement applied to `pushBoard`. -/
theorem piecesMovableTo_includes_pawn_behind_witness :
    (45 : Int) + (if cWHITE = cBLACK then 1 else -1) * 10 = 35 ∨
    (55 : Int) + (if cWHITE = cBLACK then 1 else -1) * 10
      ∈ piecesMovableTo pushBoard 55 cWHITE :=
  Or.inr (piecesMovableTo_includes_pawn_behind pushBoard 55 cWHITE
    (by decide) (by decide) (by decide))

/-- C7 (counterexample): the claim says a character starting no token form
comes back as a one-character unknown token with the cursor advanced. On
input `"/"` the maximal-run scan matches the empty run: the token text is
empty and the cursor does not move. -/
theorem next_unknown_char_no_progress :
    next ['/'] = some (⟨.TOKEN, ""⟩, ['/']) ∧
    next ['/'] ≠ some (⟨.TOKEN, "/"⟩, []) := by
  refine ⟨rfl, by decide⟩

/-- C7 (amended): on any non-whitespace character that starts none of the
other token forms, `next` returns an unknown-kind token holding the empty
string and leaves the remaining input unchanged — it makes no progress. -/
theorem next_unknown_empty_token (c : Char) (rest : List Char)
    (hws : isWs c = false)
    (hst : c ∉ [';', '{', '"', '.', '*', '[', ']', '(', ')', '<', '>', '$'])
    (hwd : isWordCh c = false) :
    next (c :: rest) = some (⟨.TOKEN, ""⟩, c :: rest) := by
  simp only [List.mem_cons, not_or] at hst
  obtain ⟨n1, n2, n3, n4, n5, n6, n7, n8, n9, n10, n11, n12, -⟩ := hst
  have h1 : ¬('1' = c) := fun he => by
    rw [← he] at hwd
    simp [isWordCh, isDigitCh] at hwd
  have h0 : ¬('0' = c) := fun he => by
    rw [← he] at hwd
    simp [isWordCh, isDigitCh] at hwd
  have hd : (c :: rest).dropWhile isWs = c :: rest := by
    simp [List.dropWhile, hws]
  have htw : (c :: rest).takeWhile isWordCh = [] := by
    simp [List.takeWhile, hwd]
  simp [next, hd, htw, List.isPrefixOf, n1, n2, n3, n4, n5, n6, n7, n8,
    n9, n10, n11, n12, h0, h1]

/-- C7 (witness): the amended statement at the slash character. -/
theorem next_unknown_empty_token_witness :
    next ['/'] = some (⟨.TOKEN, ""⟩, ['/']) :=
  next_unknown_empty_token '/' [] (by decide) (by decide) (by decide)

/-- C8 (counterexample): the claim says that after `e4` then `e5` from the
initial position the en-passant target is absent. Both moves succeed, but
black's `e5` is itself a double pawn push, so the code (correctly for
chess) stores the fresh target e6 (square 75): the target is set, not
absent. -/
theorem makeMove_e4_e5_ep_target_set :
    (MakeMove iniBoard "e4").2 = none ∧
    (MakeMove afterE4 "e5").2 = none ∧
    afterE4E5.epsq = 75 ∧ afterE4E5.epsq ≠ 0 := by
  refine ⟨rfl, rfl, rfl, by decide⟩

/-- C8 (amended): `e4` then `e5` both succeed; the target e3 set by `e4` is
replaced when `e5` is applied, and after the second call the en-passant
target is e6 — the square behind black's double-pushed pawn. -/
theorem makeMove_e4_e5_ep_target_e6 :
    (MakeMove iniBoard "e4").2 = none ∧ afterE4.epsq = string2sq "e3" ∧
    (MakeMove afterE4 "e5").2 = none ∧ afterE4E5.epsq = string2sq "e6" := by
  refine ⟨rfl, rfl, rfl, rfl⟩

/-- C9 (counterexample): the claim says a RAV is seeded with the move
number and color of the current (just-created) ply, so that in
`"e4 ( d4 ) *"` the alternative `d4` — replacing white's first move —
would record `WhiteMove = true`. The parse succeeds, but the recursive
call receives the already-advanced running state, and the RAV records
`WhiteMove = false` (the next ply's color). -/
theorem rav_records_next_ply_color :
    isOkP (parseMovesText 50 "e4 ( d4 ) *") = true ∧
    (ravOf (parseMovesText 50 "e4 ( d4 ) *") 0 0).MoveNumber = 1 ∧
    (ravOf (parseMovesText 50 "e4 ( d4 ) *") 0 0).WhiteMove = false := by
  refine ⟨rfl, rfl, rfl⟩

/-- C9 (amended): for every parse state in which an open-paren token has
been read after a ply (any remaining input, any enclosing variation and
context, any fuel, any running state whose move number is nonzero), if
the nested RAV begins directly with a move token and the parse proceeds
normally, then the recursive RAV parse — seeded, as the conclusion's
equation shows, with exactly the running move number and side-to-move
already advanced past the just-created ply — returns a variation
recording those next-ply values as its `MoveNumber`/`WhiteMove`. (When
the running move number is zero — only reachable through `uint8` wraparound —
a later integer token may re-seed the RAV, hence the nonzero hypothesis.) -/
theorem lparen_rav_records_running_state
    (fuel : Nat) (tok mtok : Tok) (text mtext : List Char) (v : Variation)
    (inRav : Bool) (n : Nat) (w : Bool) (out : Variation) (rest : List Char)
    (htok : tok.typ = .LPAREN)
    (hmove : next text = some (mtok, mtext))
    (hmtyp : mtok.typ = .SYMBOL ∨ mtok.typ = .IDENTIFIER)
    (hn : n ≠ 0)
    (h : genPlies fuel (some tok) text v true inRav n w = .ok (out, rest)) :
    ∃ rav ravRest,
      genPlies (fuel - 1) none text emptyVariation false true n w =
        .ok (rav, ravRest) ∧
      rav.MoveNumber = n ∧ rav.WhiteMove = w := by
  cases fuel with
  | zero => simp [genPlies] at h
  | succ f =>
    obtain ⟨ttyp, tval⟩ := tok
    have ht' : ttyp = .LPAREN := htok
    subst ht'
    simp only [genPlies] at h
    try dsimp only at h
    split at h
    · exact Except.noConfusion h
    · exact Except.noConfusion h
    · exact Except.noConfusion h
    · rename_i rav text2 heq
      refine ⟨rav, text2, by simpa using heq, ?_⟩
      exact genPlies_move_first_start f text mtext mtok true n w rav text2
        hmove hmtyp hn heq

/-- C9 (witness): the amended statement at the open paren of
`"e4 ( d4 ) *"`: after white's `e4` the running state is (1, black), and
the RAV `( d4 )` records move number 1, black to move. -/
theorem lparen_rav_records_running_state_witness :
    ∃ rav ravRest,
      genPlies 19 none " d4 ) *".toList emptyVariation false true 1 false =
        .ok (rav, ravRest) ∧
      rav.MoveNumber = 1 ∧ rav.WhiteMove = false :=
  lparen_rav_records_running_state 20 ⟨.LPAREN, "("⟩ ⟨.IDENTIFIER, "d4"⟩
    " d4 ) *".toList [' ', ')', ' ', '*']
    (.mk 1 true [.mk "e4" [] "" []] "" "") false 1 false
    (.mk 1 true
      [.mk "e4" [] "" [.mk 1 false [.mk "d4" [] "" []] "*" ""]] "*" "")
    [] rfl rfl (Or.inr rfl) (by decide) rfl

/-- C10: every RAV parse that returns normally carries result `"*"`: the
only normal exit of `generatePlies` with `inRav` set is the close-paren
case, which overwrites the result field with `"*"` just before returning
(a result or asterisk token inside the RAV merely records a value that
this overwrite then replaces). -/
theorem genPlies_inRav_result_star :
    ∀ (fuel : Nat) (pend : Option Tok) (text : List Char) (v : Variation)
      (hp : Bool) (n : Nat) (w : Bool) (out : Variation) (rest : List Char),
      genPlies fuel pend text v hp true n w = .ok (out, rest) →
      out.Result = "*" := by
  intro fuel
  induction fuel with
  | zero =>
    intro pend text v hp n w out rest h
    simp [genPlies] at h
  | succ f ih =>
    intro pend text v hp n w out rest h
    simp only [genPlies, Bool.not_true] at h
    repeat' split at h
    all_goals
      first
        | exact Except.noConfusion h
        | exact ih _ _ _ _ _ _ _ _ h
        | (injection h with h'; injection h' with ha hb; subst ha;
           exact setResult_Result _ _)
        | simp_all

/-- C10 (witness): a RAV consisting of a result token and a close paren
parses normally and indeed comes back with result `"*"`. -/
theorem genPlies_inRav_result_star_witness :
    ((emptyVariation.setResult "1-0").setResult "*").Result = "*" :=
  genPlies_inRav_result_star 3 none "1-0 )".toList emptyVariation false 1 true
    ((emptyVariation.setResult "1-0").setResult "*") [] rfl

end Gochess
